import Mathlib

/-!
Shallow embedding of `src/Assignment2/sketch.js`, a Mondrian-style
interactive grid sketch.

Numeric positions are modelled as rationals (`ℚ`).  The host's random
source `random(lo, hi)` is modelled by an oracle stream `rand : Nat → ℚ`
of unit-interval draws, scaled to `lo + (hi - lo) * u` exactly as p5
does; `floor(random(i+1))` in the shuffle is modelled by an oracle
`Nat → Nat`.  JavaScript `Map` objects become association lists with
overwrite-on-set semantics, and drawing calls become an explicit list of
render operations so that rendering invariants can be stated.  An array
read `a[i]` that may be out of bounds (yielding `undefined`/`NaN` in
JavaScript) is modelled with `Option`.
-/

namespace Sketch

/-- Canvas width constant `W = 820` from the sketch. -/
def W : ℚ := 820

/-- Canvas height constant `H = 600` from the sketch. -/
def H : ℚ := 600

/-- Stroke thickness constant `LINE_W = 8`. -/
def LINE_W : ℚ := 8

/-- Margin constant `MARGIN = 10`. -/
def MARGIN : ℚ := 10

/-- Morph duration `TRANSITION_MS = 1100`. -/
def TRANSITION_MS : ℚ := 1100

/-- An RGB color, standing in for a `p5.Color` value. -/
structure Color where
  r : Nat
  g : Nat
  b : Nat
deriving DecidableEq, Repr, Inhabited

/-- One rectangular cell as pushed by `computeCellsFor`: position,
extent, column index `i` and row index `j`. -/
structure Cell where
  x : ℚ
  y : ℚ
  w : ℚ
  h : ℚ
  i : Nat
  j : Nat
deriving DecidableEq, Repr

/-- Numeric ascending sort, the model of `arr.slice().sort((a,b)=>a-b)`. -/
def sortAsc (l : List ℚ) : List ℚ := l.insertionSort (· ≤ ·)

/-- The boundary array `[0, ...sorted(arr), extent]` built at the top of
`computeCellsFor`, `drawColorsFromMap` and `colorMapFromTargets`. -/
def boundaries (arr : List ℚ) (extent : ℚ) : List ℚ :=
  0 :: (sortAsc arr ++ [extent])

/-- Model of `computeCellsFor(vArr, hArr)`: enumerate cells row-major (outer loop
over row index `j`, inner over column index `i`). -/
def computeCellsFor (vArr hArr : List ℚ) : List Cell :=
  let xs := boundaries vArr W
  let ys := boundaries hArr H
  (List.range (ys.length - 1)).flatMap (fun j =>
    (List.range (xs.length - 1)).map (fun i =>
      { x := xs.getD i 0
        y := ys.getD j 0
        w := xs.getD (i + 1) 0 - xs.getD i 0
        h := ys.getD (j + 1) 0 - ys.getD j 0
        i := i
        j := j }))

/-- Model of p5 `lerp(a, b, t) = a + (b - a) * t`. -/
def lerp (a b t : ℚ) : ℚ := a + (b - a) * t

/-- Model of p5 `constrain(n, lo, hi) = max(min(n, hi), lo)`. -/
def constrain (n lo hi : ℚ) : ℚ := max (min n hi) lo

/-- Model of `easeInOutCubic(t)`: `t < 0.5 ? 4*t*t*t : 1 - pow(-2*t+2, 3)/2`. -/
def easeInOutCubic (t : ℚ) : ℚ :=
  if t < 1/2 then 4 * t * t * t else 1 - (-2 * t + 2) ^ 3 / 2

/-- Model of `lerpArray(a, b, t)`: an array of length `b.length` whose `i`-th
entry is `lerp(a[i], b[i], t)`.  No length check is performed; when
`a[i]` is out of bounds the JavaScript entry is `NaN`, modelled here as
`none`. -/
def lerpArray (a b : List ℚ) (t : ℚ) : List (Option ℚ) :=
  (List.range b.length).map (fun i => (a[i]?).map (fun av => lerp av (b.getD i 0) t))

/-- Model of `xIndexFor(x, xs)`: the first `i < xs.length - 1` with
`xs[i] <= x < xs[i+1]`, falling back to `xs.length - 2`. -/
def xIndexFor (x : ℚ) (xs : List ℚ) : Nat :=
  match (List.range (xs.length - 1)).find?
      (fun i => decide (xs.getD i 0 ≤ x) && decide (x < xs.getD (i + 1) 0)) with
  | some i => i
  | none => xs.length - 2

/-- Model of `yIndexFor(y, ys)`: same lookup along the other axis. -/
def yIndexFor (y : ℚ) (ys : List ℚ) : Nat :=
  match (List.range (ys.length - 1)).find?
      (fun j => decide (ys.getD j 0 ≤ y) && decide (y < ys.getD (j + 1) 0)) with
  | some j => j
  | none => ys.length - 2

/-- Model of `Map.prototype.set` on an association list: overwrite the entry with
the given key if present, otherwise append. -/
def mapSet (m : List (Nat × Color)) (k : Nat) (v : Color) : List (Nat × Color) :=
  if m.any (fun p => p.1 == k) then
    m.map (fun p => if p.1 == k then (k, v) else p)
  else
    m ++ [(k, v)]

/-- Model of `Map.prototype.get` on an association list. -/
def mapGet (m : List (Nat × Color)) (k : Nat) : Option Color :=
  (m.find? (fun p => p.1 == k)).map (fun p => p.2)

/-- A color anchor `{pcx, pcy, col}` from `originalColorTargets`. -/
structure Target where
  pcx : ℚ
  pcy : ℚ
  col : Color
deriving DecidableEq, Repr

/-- The hand-tuned anchor list built in `setup()`. -/
def originalColorTargets : List Target :=
  [ { pcx := 24/100, pcy := 63/100, col := ⟨25, 80, 180⟩ }
  , { pcx := 83/100, pcy := 22/100, col := ⟨25, 80, 180⟩ }
  , { pcx := 6/100,  pcy := 5/100,  col := ⟨210, 25, 45⟩ }
  , { pcx := 51/100, pcy := 78/100, col := ⟨210, 25, 45⟩ }
  , { pcx := 38/100, pcy := 18/100, col := ⟨245, 205, 35⟩ }
  , { pcx := 90/100, pcy := 92/100, col := ⟨245, 205, 35⟩ } ]

/-- Model of `colorMapFromTargets(targets, vArr, hArr)`: resolve each anchor to a
cell index against the boundary arrays and `set` its color (later
anchors overwrite earlier ones landing on the same index). -/
def colorMapFromTargets (targets : List Target) (vArr hArr : List ℚ) :
    List (Nat × Color) :=
  let xs := boundaries vArr W
  let ys := boundaries hArr H
  targets.foldl (fun m t =>
    let x := constrain t.pcx 0 1 * W
    let y := constrain t.pcy 0 1 * H
    let i := xIndexFor x xs
    let j := yIndexFor y ys
    mapSet m (j * (xs.length - 1) + i) t.col) []

/-- The hand-tuned original vertical cut positions from `setup()`. -/
def originalV : List ℚ := [90, 320, 360, 560]

/-- The hand-tuned original horizontal cut positions from `setup()`. -/
def originalH : List ℚ := [90, 250, 290, 380, 540]

/-- The map `originalColorsMap`, built once in `setup()` for the original grid. -/
def originalColorsMap : List (Nat × Color) :=
  colorMapFromTargets originalColorTargets originalV originalH

/-- Model of p5 `random(lo, hi)` applied to one unit-interval draw `u`. -/
def randomIn (lo hi u : ℚ) : ℚ := lo + (hi - lo) * u

/-- Attempt budget `triesLimit = 5000` of `makeRandomLines`. -/
def triesLimit : Nat := 5000

/-- The rejection-sampling loop of `makeRandomLines`.  `fuel` is the
number of attempts still allowed (`triesLimit - tries`), `k` the number
of attempts made so far (each attempt `k` consumes the draw `rand k`),
and `picks` the accepted positions in acceptance order.  Returns the
final picks together with the final value of the `tries` counter. -/
def mrlAux (rand : Nat → ℚ) (count : Nat) (lo hi minGap : ℚ) :
    Nat → Nat → List ℚ → List ℚ × Nat
  | 0, k, picks => (picks, k)
  | fuel + 1, k, picks =>
    if picks.length < count then
      let x := randomIn lo hi (rand k)
      let picks' :=
        if picks.all (fun p => decide (minGap ≤ |p - x|)) then picks ++ [x] else picks
      mrlAux rand count lo hi minGap fuel (k + 1) picks'
    else
      (picks, k)

/-- Result of `makeRandomLines(count, span, margin, minGap)` before the final
sort, paired with the number of attempts used. -/
def makeRandomLinesCore (count : Nat) (span margin minGap : ℚ)
    (rand : Nat → ℚ) : List ℚ × Nat :=
  mrlAux rand count (margin + LINE_W) (span - margin - LINE_W) minGap triesLimit 0 []

/-- Model of `makeRandomLines(count, span, margin, minGap)`: the sorted picks. -/
def makeRandomLines (count : Nat) (span margin minGap : ℚ)
    (rand : Nat → ℚ) : List ℚ :=
  sortAsc (makeRandomLinesCore count span margin minGap rand).1

/-- Swap two array entries when both indices are in bounds (the
Fisher-Yates indices of the sketch always are). -/
def arrSwap (a : Array Nat) (i j : Nat) : Array Nat :=
  if hi : i < a.size then
    if hj : j < a.size then (a.set ⟨i, hi⟩ a[j]).set ⟨j, by simpa using hj⟩ a[i]
    else a
  else a

/-- The loop of `shuffleInPlace`: for `i` from `arr.length - 1` down to
`1`, swap entry `i` with entry `r i` (the model of `floor(random(i+1))`,
which lies in `[0, i]`). -/
def fisherYatesAux (r : Nat → Nat) : Nat → Array Nat → Array Nat
  | 0, a => a
  | i + 1, a => fisherYatesAux r i (arrSwap a (i + 1) (r (i + 1)))

/-- Model of `shuffleInPlace(arr)` with the random indices supplied by `r`. -/
def shuffleInPlace (r : Nat → Nat) (a : Array Nat) : Array Nat :=
  fisherYatesAux r (a.size - 1) a

/-- The interaction mode string: `"original" | "randomized" | "transition"`. -/
inductive Mode where
  | original : Mode
  | randomized : Mode
  | transition : Mode
deriving DecidableEq, Repr

/-- The mutable state of the sketch: mode, live lines, cells, the
transition snapshot, and the random color map.  The original lines,
targets and color map are constants fixed at `setup()`. -/
structure SketchState where
  mode : Mode
  vLines : List ℚ
  hLines : List ℚ
  cells : List Cell
  vStart : List ℚ
  hStart : List ℚ
  tStart : ℚ
  randomColorsMap : List (Nat × Color)
deriving Repr

/-- One drawing call issued during a frame: the background fill, a
vertical or horizontal grid line (`none` for a `NaN` position coming
from a mismatched `lerpArray`), or a colored cell rectangle. -/
inductive RenderOp where
  | bg : RenderOp
  | lineV : Option ℚ → RenderOp
  | lineH : Option ℚ → RenderOp
  | fillRect : ℚ → ℚ → ℚ → ℚ → Color → RenderOp
deriving DecidableEq, Repr

/-- Does a render operation fill a cell with color? -/
def isFill : RenderOp → Bool
  | .fillRect _ _ _ _ _ => true
  | _ => false

/-- Model of `drawGrid(vArr, hArr)`: one vertical line per entry of
`[0, ...vArr, W]` and one horizontal line per entry of `[0, ...hArr, H]`. -/
def drawGrid (vArr hArr : List (Option ℚ)) : List RenderOp :=
  (some 0 :: (vArr ++ [some W])).map RenderOp.lineV ++
    (some 0 :: (hArr ++ [some H])).map RenderOp.lineH

/-- Model of `drawColorsFromMap(map, vArr, hArr)`: for each cell index present in
the map, fill the corresponding rectangle (cells without an entry are
skipped). -/
def drawColorsFromMap (m : List (Nat × Color)) (vArr hArr : List ℚ) :
    List RenderOp :=
  let xs := boundaries vArr W
  let ys := boundaries hArr H
  (List.range (ys.length - 1)).flatMap (fun j =>
    (List.range (xs.length - 1)).filterMap (fun i =>
      (mapGet m (j * (xs.length - 1) + i)).map (fun col =>
        RenderOp.fillRect (xs.getD i 0) (ys.getD j 0)
          (xs.getD (i + 1) 0 - xs.getD i 0) (ys.getD (j + 1) 0 - ys.getD j 0) col)))

/-- One invocation of `draw()` at clock time `now` (`millis()`): returns
the state after the frame and the list of render operations issued, in
order. -/
def drawStep (s : SketchState) (now : ℚ) : SketchState × List RenderOp :=
  match s.mode with
  | .transition =>
    let u := constrain ((now - s.tStart) / TRANSITION_MS) 0 1
    let t := easeInOutCubic u
    let vCurr := lerpArray s.vStart originalV t
    let hCurr := lerpArray s.hStart originalH t
    let s' :=
      if 1 ≤ u then
        { s with
          vLines := originalV
          hLines := originalH
          cells := computeCellsFor originalV originalH
          mode := .original }
      else s
    (s', RenderOp.bg :: drawGrid vCurr hCurr)
  | .randomized =>
    (s, RenderOp.bg ::
      (drawColorsFromMap s.randomColorsMap s.vLines s.hLines ++
        drawGrid (s.vLines.map some) (s.hLines.map some)))
  | .original =>
    (s, RenderOp.bg ::
      (drawColorsFromMap originalColorsMap s.vLines s.hLines ++
        drawGrid (s.vLines.map some) (s.hLines.map some)))

/-- The palette `originalColorTargets.map(o => o.col)` of `mousePressed`. -/
def palette : List Color := originalColorTargets.map (fun t => t.col)

/-- The loop of `mousePressed` that repopulates `randomColorsMap`:
`for (i < palette.length && i < indices.length) set(indices[i], palette[i % palette.length])`
starting from a cleared map. -/
def buildRandomMap (pal : List Color) (indices : List Nat) : List (Nat × Color) :=
  (List.range (min pal.length indices.length)).foldl (fun m i =>
    mapSet m (indices.getD i 0) (pal.getD (i % pal.length) default)) []

/-- Model of `mousePressed()`: fresh random lines with the original counts, fresh
cells, a fresh random color map over shuffled cell indices, and mode
`"randomized"`.  `randV`/`randH` supply the unit-interval draws of the
two `makeRandomLines` calls and `shuf` the shuffle indices. -/
def mousePressed (s : SketchState) (randV randH : Nat → ℚ)
    (shuf : Nat → Nat) : SketchState :=
  let vL := makeRandomLines originalV.length W MARGIN 60 randV
  let hL := makeRandomLines originalH.length H MARGIN 60 randH
  let cs := computeCellsFor vL hL
  let indices := (shuffleInPlace shuf (Array.range cs.length)).toList
  { s with
    mode := .randomized
    vLines := vL
    hLines := hL
    cells := cs
    randomColorsMap := buildRandomMap palette indices }

/-- Model of `mouseReleased()`: snapshot the live lines, record the timestamp,
and enter `"transition"`. -/
def mouseReleased (s : SketchState) (now : ℚ) : SketchState :=
  { s with vStart := s.vLines, hStart := s.hLines, tStart := now, mode := .transition }

/-- The state established by `setup()`. -/
def initialState : SketchState :=
  { mode := .original
    vLines := originalV
    hLines := originalH
    cells := computeCellsFor originalV originalH
    vStart := []
    hStart := []
    tStart := 0
    randomColorsMap := [] }

/-- One externally triggered event of a run: a mouse press (with its
random oracles), a mouse release, or a frame tick. -/
inductive Event where
  | press : (Nat → ℚ) → (Nat → ℚ) → (Nat → Nat) → Event
  | release : ℚ → Event
  | tick : ℚ → Event

/-- The state transition performed by one event. -/
def stepEvent (s : SketchState) : Event → SketchState
  | .press randV randH shuf => mousePressed s randV randH shuf
  | .release now => mouseReleased s now
  | .tick now => (drawStep s now).1

/-! ### Helper lemmas -/

theorem boundaries_length (arr : List ℚ) (e : ℚ) :
    (boundaries arr e).length = arr.length + 2 := by
  simp [boundaries, sortAsc, List.length_insertionSort]

theorem flatMap_range_rowMajor (n m : Nat) :
    (List.range n).flatMap (fun j => (List.range m).map (fun i => j * m + i)) =
      List.range (n * m) := by
  induction n with
  | zero => simp
  | succ n ih =>
    rw [List.range_succ, List.flatMap_append, ih, Nat.succ_mul, List.range_add]
    simp [List.flatMap_cons]

theorem computeCellsFor_indexMap (vArr hArr : List ℚ) :
    (computeCellsFor vArr hArr).map (fun c => c.j * (vArr.length + 1) + c.i) =
      List.range ((vArr.length + 1) * (hArr.length + 1)) := by
  have hx : (boundaries vArr W).length - 1 = vArr.length + 1 := by
    rw [boundaries_length]; omega
  have hy : (boundaries hArr H).length - 1 = hArr.length + 1 := by
    rw [boundaries_length]; omega
  unfold computeCellsFor
  rw [List.map_flatMap]
  simp only [List.map_map, Function.comp_def, hx, hy]
  rw [flatMap_range_rowMajor, Nat.mul_comm]

/-! ### Claim theorems -/

/-- C1.  For cut lists of lengths `m` (vertical) and `n` (horizontal),
`computeCellsFor` returns exactly `(m+1)*(n+1)` cells; listing the
row-major linear index `row * columnCount + column` of each cell in
emission order gives exactly `[0, (m+1)*(n+1))` in increasing order; and
with both cut lists empty it returns the single full-canvas cell. -/
theorem computeCellsFor_count_rowMajor (vArr hArr : List ℚ) :
    (computeCellsFor vArr hArr).length = (vArr.length + 1) * (hArr.length + 1) ∧
    (computeCellsFor vArr hArr).map (fun c => c.j * (vArr.length + 1) + c.i) =
      List.range ((vArr.length + 1) * (hArr.length + 1)) ∧
    computeCellsFor [] [] = [{ x := 0, y := 0, w := W, h := H, i := 0, j := 0 }] := by
  have h1 : List.range 1 = [0] := rfl
  refine ⟨?_, computeCellsFor_indexMap vArr hArr,
    by norm_num [computeCellsFor, boundaries, sortAsc, List.insertionSort, h1,
      List.flatMap_cons, List.flatMap_nil]⟩
  have h := congrArg List.length (computeCellsFor_indexMap vArr hArr)
  simpa using h

/-- C10.  For any coordinate and any boundary array with at least two
entries, `xIndexFor` (and likewise `yIndexFor`) returns an index in
`[0, xs.length - 2]`; when no half-open interval `[xs[i], xs[i+1])`
contains the point (a point on or past the right edge, or left of every
boundary), the fallback clamps the result to the last interval
`xs.length - 2`. -/
theorem xIndexFor_total (x : ℚ) (xs : List ℚ) (h2 : 2 ≤ xs.length) :
    xIndexFor x xs ≤ xs.length - 2 ∧
    yIndexFor x xs ≤ xs.length - 2 ∧
    ((∀ i, i < xs.length - 1 → ¬(xs.getD i 0 ≤ x ∧ x < xs.getD (i + 1) 0)) →
      xIndexFor x xs = xs.length - 2) := by
  have hxy : yIndexFor x xs = xIndexFor x xs := rfl
  have hmain : xIndexFor x xs ≤ xs.length - 2 := by
    cases hfind : (List.range (xs.length - 1)).find?
        (fun i => decide (xs.getD i 0 ≤ x) && decide (x < xs.getD (i + 1) 0)) with
    | none =>
      simp only [xIndexFor, hfind]
      exact Nat.le_refl _
    | some i =>
      have hi : i ∈ List.range (xs.length - 1) := List.mem_of_find?_eq_some hfind
      have := List.mem_range.mp hi
      simp only [xIndexFor, hfind]
      omega
  refine ⟨hmain, hxy ▸ hmain, fun hnone => ?_⟩
  cases hfind : (List.range (xs.length - 1)).find?
      (fun i => decide (xs.getD i 0 ≤ x) && decide (x < xs.getD (i + 1) 0)) with
  | none => simp only [xIndexFor, hfind]
  | some i =>
    have hi : i ∈ List.range (xs.length - 1) := List.mem_of_find?_eq_some hfind
    have hp := List.find?_some hfind
    simp only [Bool.and_eq_true, decide_eq_true_eq] at hp
    exact absurd ⟨hp.1, hp.2⟩ (hnone i (List.mem_range.mp hi))

/-- Witness for C10 at `x = 5`, `xs = [0, 10]`. -/
theorem xIndexFor_total_witness :
    2 ≤ ([0, 10] : List ℚ).length ∧
    xIndexFor 5 [0, 10] ≤ ([0, 10] : List ℚ).length - 2 :=
  ⟨by simp, (xIndexFor_total 5 [0, 10] (by simp)).1⟩

/-- C4.  With the original configuration, the anchor at fractional
coordinates `(0.24, 0.63)` — absolute point `(196.8, 378)` — resolves to
column 1 of boundaries `[0,90,320,360,560,820]` and row 3 of boundaries
`[0,90,250,290,380,540,600]`, hence cell index `3*5+1 = 16`, and
`colorMapFromTargets` maps index 16 to that anchor's blue. -/
theorem anchor_blue_cell_16 :
    constrain (24/100) 0 1 * W = 984/5 ∧
    constrain (63/100) 0 1 * H = 378 ∧
    xIndexFor (constrain (24/100) 0 1 * W) (boundaries originalV W) = 1 ∧
    yIndexFor (constrain (63/100) 0 1 * H) (boundaries originalH H) = 3 ∧
    mapGet originalColorsMap (3 * 5 + 1) = some ⟨25, 80, 180⟩ := by
  refine ⟨by norm_num [constrain, W, min_def, max_def],
    by norm_num [constrain, H, min_def, max_def], ?_, ?_, ?_⟩
  · norm_num [xIndexFor, boundaries, originalV, sortAsc, W, constrain, min_def, max_def,
      List.insertionSort, List.orderedInsert, List.find?]
  · norm_num [yIndexFor, boundaries, originalH, sortAsc, H, constrain, min_def, max_def,
      List.insertionSort, List.orderedInsert, List.find?]
  · norm_num [originalColorsMap, colorMapFromTargets, originalColorTargets, originalV,
      originalH, boundaries, sortAsc, W, H, constrain, min_def, max_def, xIndexFor, yIndexFor,
      List.insertionSort, List.orderedInsert, List.find?, mapSet, mapGet]

theorem lerp_zero (a b : ℚ) : lerp a b 0 = a := by
  unfold lerp; ring

theorem lerp_one (a b : ℚ) : lerp a b 1 = b := by
  unfold lerp; ring

theorem easeInOutCubic_monotone {s t : ℚ} (hs : 0 ≤ s) (hst : s ≤ t) (ht : t ≤ 1) :
    easeInOutCubic s ≤ easeInOutCubic t := by
  unfold easeInOutCubic
  split_ifs with h1 h2 h2
  · nlinarith [pow_le_pow_left₀ hs hst 3]
  · have ha : (0:ℚ) ≤ -2 * t + 2 := by linarith
    have hb : (-2 * t + 2 : ℚ) ≤ 1 := by linarith
    have h3 := pow_le_pow_left₀ ha hb 3
    have h4 := pow_le_pow_left₀ hs (le_of_lt h1) 3
    nlinarith [h3, h4]
  · exact absurd (lt_of_le_of_lt hst h2) h1
  · have ha : (0:ℚ) ≤ -2 * t + 2 := by linarith
    have hab : (-2 * t + 2 : ℚ) ≤ -2 * s + 2 := by linarith
    have h3 := pow_le_pow_left₀ ha hab 3
    linarith

/-- C9.  For equal-length start and target lists, the eased element-wise
interpolation yields exactly the start list at progress 0 and exactly
the target list at progress 1, and `easeInOutCubic` is monotonically
non-decreasing on `[0, 1]`. -/
theorem eased_interpolation_boundaries (a b : List ℚ) (hlen : a.length = b.length) :
    lerpArray a b (easeInOutCubic 0) = a.map some ∧
    lerpArray a b (easeInOutCubic 1) = b.map some ∧
    (∀ s t : ℚ, 0 ≤ s → s ≤ t → t ≤ 1 → easeInOutCubic s ≤ easeInOutCubic t) := by
  have he0 : easeInOutCubic 0 = 0 := by norm_num [easeInOutCubic]
  have he1 : easeInOutCubic 1 = 1 := by norm_num [easeInOutCubic]
  refine ⟨?_, ?_, fun s t hs hst ht => easeInOutCubic_monotone hs hst ht⟩
  · rw [he0]
    apply List.ext_getElem
    · simp [lerpArray, hlen]
    · intro n h1 h2
      have hn : n < a.length := by simpa using h2
      simp [lerpArray, List.getElem?_eq_getElem hn, lerp_zero]
  · rw [he1]
    apply List.ext_getElem
    · simp [lerpArray]
    · intro n h1 h2
      have hnb : n < b.length := by simpa using h2
      have hn : n < a.length := hlen ▸ hnb
      simp [lerpArray, List.getElem?_eq_getElem hn, lerp_one,
        List.getD_eq_getElem?_getD, List.getElem?_eq_getElem hnb]

/-- Witness for C9 at `a = [1]`, `b = [2]`. -/
theorem eased_interpolation_boundaries_witness :
    ([1] : List ℚ).length = ([2] : List ℚ).length ∧
    (lerpArray [1] [2] (easeInOutCubic 0) = ([1] : List ℚ).map some ∧
     lerpArray [1] [2] (easeInOutCubic 1) = ([2] : List ℚ).map some ∧
     (∀ s t : ℚ, 0 ≤ s → s ≤ t → t ≤ 1 → easeInOutCubic s ≤ easeInOutCubic t)) :=
  ⟨rfl, eased_interpolation_boundaries [1] [2] rfl⟩

/-- C5 counterexample: `lerpArray` does not fail fast on mismatched
lengths.  With a start list of length 2 and a target list of length 1 it
silently returns the well-defined partially interpolated result
`[some 20]`. -/
theorem lerpArray_mismatch_returns_result :
    ([10, 20] : List ℚ).length = 2 ∧
    ([30] : List ℚ).length = 1 ∧
    lerpArray [10, 20] [30] (1/2) = [some 20] := by
  have h1 : List.range 1 = [0] := rfl
  refine ⟨rfl, rfl, ?_⟩
  norm_num [lerpArray, lerp, h1]

/-- C5 (amended).  `lerpArray` performs no length check and never
signals an error: it always returns a list of length `b.length`, and its
`i`-th entry is a defined interpolated number exactly when `i < a.length`
(`NaN`, modelled as `none`, otherwise).  In particular a start list
longer than the target yields a fully defined partially interpolated
result instead of a fatal precondition violation. -/
theorem lerpArray_total_no_check (a b : List ℚ) (t : ℚ) :
    (lerpArray a b t).length = b.length ∧
    ∀ i, i < b.length →
      ((lerpArray a b t).getD i none).isSome = decide (i < a.length) := by
  constructor
  · simp [lerpArray]
  · intro i hi
    have hi' : i < (lerpArray a b t).length := by simpa [lerpArray] using hi
    have hget : (lerpArray a b t).getD i none =
        (a[i]?).map (fun av => lerp av (b.getD i 0) t) := by
      rw [List.getD_eq_getElem?_getD, List.getElem?_eq_getElem hi']
      simp [lerpArray]
    rw [hget, Option.isSome_map']
    by_cases h : i < a.length
    · simp [List.getElem?_eq_getElem h, h]
    · simp [List.getElem?_eq_none (le_of_not_lt h), h]

/-- Witness for C5's amended theorem at `a = [10, 20]`, `b = [30]`,
`i = 0`. -/
theorem lerpArray_total_no_check_witness :
    0 < ([30] : List ℚ).length ∧
    ((lerpArray [10, 20] [30] (1/2)).getD 0 none).isSome =
      decide (0 < ([10, 20] : List ℚ).length) :=
  ⟨by decide, (lerpArray_total_no_check [10, 20] [30] (1/2)).2 0 (by decide)⟩

theorem randomIn_mem {lo hi u : ℚ} (hlo : lo ≤ hi) (hu0 : 0 ≤ u) (hu1 : u < 1) :
    lo ≤ randomIn lo hi u ∧ randomIn lo hi u ≤ hi := by
  unfold randomIn
  constructor
  · nlinarith [mul_nonneg (sub_nonneg.mpr hlo) hu0]
  · nlinarith [mul_nonneg (sub_nonneg.mpr hlo) (by linarith : (0:ℚ) ≤ 1 - u)]

theorem mrlAux_succ (rand : Nat → ℚ) (count : Nat) (lo hi minGap : ℚ)
    (n k : Nat) (picks : List ℚ) :
    mrlAux rand count lo hi minGap (n + 1) k picks =
      if picks.length < count then
        mrlAux rand count lo hi minGap n (k + 1)
          (if picks.all (fun p => decide (minGap ≤ |p - randomIn lo hi (rand k)|)) then
            picks ++ [randomIn lo hi (rand k)]
          else picks)
      else (picks, k) := rfl

theorem mrlAux_invariant (rand : Nat → ℚ) (count : Nat) (lo hi minGap : ℚ)
    (hlo : lo ≤ hi) (hrand : ∀ k, 0 ≤ rand k ∧ rand k < 1) :
    ∀ fuel k picks,
      (∀ p ∈ picks, lo ≤ p ∧ p ≤ hi) →
      picks.Pairwise (fun p q => minGap ≤ |p - q|) →
      (∀ p ∈ (mrlAux rand count lo hi minGap fuel k picks).1, lo ≤ p ∧ p ≤ hi) ∧
      (mrlAux rand count lo hi minGap fuel k picks).1.Pairwise
        (fun p q => minGap ≤ |p - q|) := by
  intro fuel
  induction fuel with
  | zero => exact fun k picks hmem hpw => ⟨hmem, hpw⟩
  | succ n ih =>
    intro k picks hmem hpw
    rw [mrlAux_succ]
    by_cases hlen : picks.length < count
    · rw [if_pos hlen]
      by_cases hacc :
          (picks.all fun p => decide (minGap ≤ |p - randomIn lo hi (rand k)|)) = true
      · rw [if_pos hacc]
        refine ih (k + 1) _ ?_ ?_
        · intro p hp
          rcases List.mem_append.mp hp with h | h
          · exact hmem p h
          · rw [List.mem_singleton.mp h]
            exact randomIn_mem hlo (hrand k).1 (hrand k).2
        · rw [List.pairwise_append]
          refine ⟨hpw, List.pairwise_singleton _ _, ?_⟩
          intro p hp q hq
          rw [List.mem_singleton.mp hq]
          have := List.all_eq_true.mp hacc p hp
          exact decide_eq_true_eq.mp this
      · rw [if_neg hacc]
        exact ih (k + 1) picks hmem hpw
    · rw [if_neg hlen]
      exact ⟨hmem, hpw⟩

theorem mrlAux_length_le (rand : Nat → ℚ) (count : Nat) (lo hi minGap : ℚ) :
    ∀ fuel k picks, picks.length ≤ count →
      (mrlAux rand count lo hi minGap fuel k picks).1.length ≤ count := by
  intro fuel
  induction fuel with
  | zero => exact fun k picks h => h
  | succ n ih =>
    intro k picks h
    rw [mrlAux_succ]
    by_cases hlen : picks.length < count
    · rw [if_pos hlen]
      by_cases hacc :
          (picks.all fun p => decide (minGap ≤ |p - randomIn lo hi (rand k)|)) = true
      · rw [if_pos hacc]
        refine ih (k + 1) _ ?_
        simpa using hlen
      · rw [if_neg hacc]
        exact ih (k + 1) picks h
    · rw [if_neg hlen]
      exact h

theorem mrlAux_tries_le (rand : Nat → ℚ) (count : Nat) (lo hi minGap : ℚ) :
    ∀ fuel k picks, (mrlAux rand count lo hi minGap fuel k picks).2 ≤ k + fuel := by
  intro fuel
  induction fuel with
  | zero => exact fun k picks => Nat.le_add_right k 0
  | succ n ih =>
    intro k picks
    rw [mrlAux_succ]
    by_cases hlen : picks.length < count
    · rw [if_pos hlen]
      calc (mrlAux rand count lo hi minGap n (k + 1) _).2 ≤ (k + 1) + n := ih (k + 1) _
        _ ≤ k + (n + 1) := by omega
    · rw [if_neg hlen]
      omega

/-- C6.  Under the host random contract (unit-interval draws) and a
non-degenerate sampling interval, every list returned by
`makeRandomLines` is sorted ascending, every pair of its elements
differs by at least `minGap` (hence consecutive sorted values do), and
every element lies within `[margin + LINE_W, span - margin - LINE_W]`. -/
theorem makeRandomLines_sorted_gap_range (count : Nat) (span margin minGap : ℚ)
    (rand : Nat → ℚ) (hrand : ∀ k, 0 ≤ rand k ∧ rand k < 1)
    (hspan : margin + LINE_W ≤ span - margin - LINE_W) :
    (makeRandomLines count span margin minGap rand).Sorted (· ≤ ·) ∧
    (makeRandomLines count span margin minGap rand).Pairwise
      (fun p q => minGap ≤ |p - q|) ∧
    (∀ x ∈ makeRandomLines count span margin minGap rand,
      margin + LINE_W ≤ x ∧ x ≤ span - margin - LINE_W) := by
  have hinv := mrlAux_invariant rand count (margin + LINE_W) (span - margin - LINE_W)
    minGap hspan hrand triesLimit 0 [] (by simp) (by simp)
  have hperm : (makeRandomLines count span margin minGap rand).Perm
      (makeRandomLinesCore count span margin minGap rand).1 :=
    List.perm_insertionSort _ _
  have hsym : ∀ {p q : ℚ}, minGap ≤ |p - q| → minGap ≤ |q - p| := by
    intro p q h
    rwa [abs_sub_comm]
  refine ⟨List.sorted_insertionSort _ _, ?_, ?_⟩
  · exact (hperm.pairwise_iff hsym).mpr hinv.2
  · intro x hx
    exact hinv.1 x (hperm.mem_iff.mp hx)

/-- Witness for C6 at `count = 1`, `span = 820`, `margin = MARGIN`,
`minGap = 60` and the constant draw `1/2`. -/
theorem makeRandomLines_sorted_gap_range_witness :
    (∀ k : Nat, 0 ≤ (fun _ : Nat => (1:ℚ)/2) k ∧ (fun _ : Nat => (1:ℚ)/2) k < 1) ∧
    MARGIN + LINE_W ≤ 820 - MARGIN - LINE_W ∧
    (∀ x ∈ makeRandomLines 1 820 MARGIN 60 (fun _ : Nat => (1:ℚ)/2),
      MARGIN + LINE_W ≤ x ∧ x ≤ 820 - MARGIN - LINE_W) :=
  ⟨fun _ => ⟨by norm_num, by norm_num⟩, by norm_num [MARGIN, LINE_W],
    (makeRandomLines_sorted_gap_range 1 820 MARGIN 60 (fun _ : Nat => (1:ℚ)/2)
      (fun _ => ⟨by norm_num, by norm_num⟩) (by norm_num [MARGIN, LINE_W])).2.2⟩

/-- C7.  `makeRandomLines` terminates by construction (its loop is
bounded by the attempt budget): the final value of its `tries` counter
never exceeds `triesLimit = 5000`, and the returned list never holds
more than `count` positions (when the budget runs out it simply returns
the fewer positions accepted so far, with no error). -/
theorem makeRandomLines_bounded (count : Nat) (span margin minGap : ℚ)
    (rand : Nat → ℚ) :
    (makeRandomLines count span margin minGap rand).length ≤ count ∧
    (makeRandomLinesCore count span margin minGap rand).2 ≤ triesLimit := by
  constructor
  · unfold makeRandomLines sortAsc
    rw [List.length_insertionSort]
    exact mrlAux_length_le rand count _ _ minGap triesLimit 0 [] (Nat.zero_le count)
  · have h := mrlAux_tries_le rand count (margin + LINE_W) (span - margin - LINE_W)
      minGap triesLimit 0 []
    simpa using h

theorem filter_isFill_drawGrid (vArr hArr : List (Option ℚ)) :
    (drawGrid vArr hArr).filter isFill = [] := by
  rw [List.filter_eq_nil_iff]
  intro op hop
  rcases List.mem_append.mp hop with h | h <;>
    · rcases List.mem_map.mp h with ⟨o, _, rfl⟩
      simp [isFill]

theorem filter_isFill_drawColorsFromMap (m : List (Nat × Color)) (vArr hArr : List ℚ) :
    (drawColorsFromMap m vArr hArr).filter isFill = drawColorsFromMap m vArr hArr := by
  rw [List.filter_eq_self]
  intro op hop
  simp only [drawColorsFromMap] at hop
  rcases List.mem_flatMap.mp hop with ⟨j, _, hj⟩
  rcases List.mem_filterMap.mp hj with ⟨i, _, hi⟩
  rcases Option.map_eq_some'.mp hi with ⟨c, _, rfl⟩
  simp [isFill]

/-- C2.  In any state, the cell fills issued by one `draw()` frame are
exactly those of `drawColorsFromMap` applied to `originalColorsMap` in
mode `"original"` and to `randomColorsMap` in mode `"randomized"`, both
against that state's authoritative `vLines`/`hLines`; in mode
`"transition"` the frame issues no fill at all (only background and
grid lines over the interpolated boundaries). -/
theorem draw_colors_iff_mode (s : SketchState) (now : ℚ) :
    (drawStep s now).2.filter isFill =
      (match s.mode with
       | Mode.transition => []
       | Mode.randomized => drawColorsFromMap s.randomColorsMap s.vLines s.hLines
       | Mode.original => drawColorsFromMap originalColorsMap s.vLines s.hLines) := by
  cases hm : s.mode with
  | transition =>
    simp [drawStep, hm, List.filter_cons, isFill, filter_isFill_drawGrid]
  | randomized =>
    simp [drawStep, hm, List.filter_cons, List.filter_append, isFill,
      filter_isFill_drawGrid, filter_isFill_drawColorsFromMap]
  | original =>
    simp [drawStep, hm, List.filter_cons, List.filter_append, isFill,
      filter_isFill_drawGrid, filter_isFill_drawColorsFromMap]

/-- C3.  Whenever a frame tick in mode `"transition"` observes progress
`u ≥ 1` (that is, at least `TRANSITION_MS` elapsed since `tStart`), the
frame commits: the authoritative cut lists become exactly `originalV`
and `originalH` (the untouched targets, not the interpolated values),
the cells are recomputed from them, and the mode becomes `"original"`.
Since this holds for an arbitrary state, every completed
randomize/release cycle ends with the authoritative cuts exactly equal
to the original cuts — no drift can accumulate. -/
theorem transition_complete_commits (s : SketchState) (now : ℚ)
    (hmode : s.mode = Mode.transition) (hdone : TRANSITION_MS ≤ now - s.tStart) :
    (drawStep s now).1.vLines = originalV ∧
    (drawStep s now).1.hLines = originalH ∧
    (drawStep s now).1.cells = computeCellsFor originalV originalH ∧
    (drawStep s now).1.mode = Mode.original := by
  have hq : (1:ℚ) ≤ (now - s.tStart) / TRANSITION_MS := by
    rw [le_div_iff₀ (by norm_num [TRANSITION_MS] : (0:ℚ) < TRANSITION_MS)]
    simpa [TRANSITION_MS] using hdone
  have hu : constrain ((now - s.tStart) / TRANSITION_MS) 0 1 = 1 := by
    unfold constrain
    rw [min_eq_right hq, max_eq_left (by norm_num)]
  simp [drawStep, hmode, hu]

/-- Witness for C3: release at time 0, tick at time 1100. -/
theorem transition_complete_commits_witness :
    (mouseReleased initialState 0).mode = Mode.transition ∧
    TRANSITION_MS ≤ 1100 - (mouseReleased initialState 0).tStart ∧
    (drawStep (mouseReleased initialState 0) 1100).1.vLines = originalV :=
  ⟨rfl, by simp [mouseReleased, initialState, TRANSITION_MS],
    (transition_complete_commits (mouseReleased initialState 0) 1100 rfl
      (by simp [mouseReleased, initialState, TRANSITION_MS])).1⟩

theorem mrlAux_const_stuck (u : ℚ) (count : Nat) (lo hi minGap : ℚ) (hgap : 0 < minGap) :
    ∀ fuel k,
      (mrlAux (fun _ => u) count lo hi minGap fuel k [randomIn lo hi u]).1 =
        [randomIn lo hi u] := by
  intro fuel
  induction fuel with
  | zero => exact fun k => rfl
  | succ n ih =>
    intro k
    simp only [mrlAux_succ]
    by_cases hlen : [randomIn lo hi u].length < count
    · rw [if_pos hlen]
      have hacc : ¬ (([randomIn lo hi u].all fun p =>
          decide (minGap ≤ |p - randomIn lo hi u|)) = true) := by
        simp only [List.all_cons, List.all_nil, Bool.and_true, sub_self, abs_zero,
          decide_eq_true_eq, not_le]
        exact hgap
      rw [if_neg hacc]
      exact ih (k + 1)
    · rw [if_neg hlen]

theorem makeRandomLines_const_one (count : Nat) (hcount : 0 < count)
    (u span margin minGap : ℚ) (hgap : 0 < minGap) :
    makeRandomLines count span margin minGap (fun _ => u) =
      [randomIn (margin + LINE_W) (span - margin - LINE_W) u] := by
  unfold makeRandomLines makeRandomLinesCore
  have h5000 : triesLimit = 4999 + 1 := rfl
  rw [h5000, mrlAux_succ]
  rw [if_pos (by simpa using hcount), if_pos (by simp), List.nil_append]
  show sortAsc (mrlAux (fun _ => u) count (margin + LINE_W) (span - margin - LINE_W)
      minGap 4999 1 [randomIn (margin + LINE_W) (span - margin - LINE_W) u]).1 =
    [randomIn (margin + LINE_W) (span - margin - LINE_W) u]
  rw [mrlAux_const_stuck u count (margin + LINE_W) (span - margin - LINE_W) minGap hgap 4999 1]
  rfl

/-- C8 counterexample: a press whose random source keeps returning the
same unit draw exhausts the attempt budget after one acceptance, so the
authoritative vertical cut list shrinks from its setup length 4 to
length 1 — the length is not invariant across events. -/
theorem cutCount_changes_counterexample :
    initialState.vLines.length = 4 ∧
    (stepEvent initialState
      (Event.press (fun _ => 1/2) (fun _ => 1/2) (fun _ => 0))).vLines.length = 1 := by
  constructor
  · rfl
  · have hlen : originalV.length = 4 := rfl
    simp only [stepEvent, mousePressed, hlen]
    rw [makeRandomLines_const_one 4 (by norm_num) (1/2) W MARGIN 60 (by norm_num)]
    rfl

theorem makeRandomLines_length_le (count : Nat) (span margin minGap : ℚ)
    (rand : Nat → ℚ) :
    (makeRandomLines count span margin minGap rand).length ≤ count := by
  unfold makeRandomLines sortAsc
  rw [List.length_insertionSort]
  exact mrlAux_length_le rand count _ _ minGap triesLimit 0 [] (Nat.zero_le count)

/-- C8 (amended).  The cut-list lengths never exceed the counts
established at setup, and every event preserves this bound: a press
requests exactly the original counts but may produce fewer positions
when the rejection-sampling budget is exhausted, a release leaves the
lists untouched, and a completing transition tick restores exactly the
original lists.  Equality with the setup counts is therefore not an
invariant, but the upper bound is. -/
theorem cutCount_never_exceeds (s : SketchState) (e : Event)
    (hv : s.vLines.length ≤ originalV.length)
    (hh : s.hLines.length ≤ originalH.length) :
    (stepEvent s e).vLines.length ≤ originalV.length ∧
    (stepEvent s e).hLines.length ≤ originalH.length := by
  cases e with
  | press randV randH shuf =>
    refine ⟨?_, ?_⟩
    · simpa [stepEvent, mousePressed] using
        makeRandomLines_length_le originalV.length W MARGIN 60 randV
    · simpa [stepEvent, mousePressed] using
        makeRandomLines_length_le originalH.length H MARGIN 60 randH
  | release now =>
    exact ⟨hv, hh⟩
  | tick now =>
    cases hm : s.mode with
    | transition =>
      by_cases hu : (1:ℚ) ≤ constrain ((now - s.tStart) / TRANSITION_MS) 0 1
      · simp [stepEvent, drawStep, hm, hu]
      · simp [stepEvent, drawStep, hm, hu, hv, hh]
    | randomized => simpa [stepEvent, drawStep, hm] using ⟨hv, hh⟩
    | original => simpa [stepEvent, drawStep, hm] using ⟨hv, hh⟩

/-- Witness for C8's amended theorem at the setup state and a release. -/
theorem cutCount_never_exceeds_witness :
    initialState.vLines.length ≤ originalV.length ∧
    initialState.hLines.length ≤ originalH.length ∧
    (stepEvent initialState (Event.release 0)).vLines.length ≤ originalV.length :=
  ⟨by decide, by decide,
    (cutCount_never_exceeds initialState (Event.release 0) (by decide) (by decide)).1⟩

end Sketch
